import Mathlib

/-!
Verification of the hyperliquid-trade-recon reconciliation core.

This file gives a shallow embedding, in Lean 4, of the reconciliation layer of
the Go program (backend/services/hyperliquid.go together with
backend/models/trade.go and backend/config/config.go), and proves or refutes
the specified properties of that layer.

Modelling conventions:
- timestamps are Unix milliseconds, embedded as Int (Go int64 values in the
  program stay far below 2^63, and no arithmetic in the modelled code can
  overflow, so plain Int is faithful);
- Go float64 prices, sizes and P&L accumulators are embedded as Rat: every
  claim here concerns exact arithmetic, not rounding behaviour;
- a Go map[K]V is embedded as an insertion-ordered association list with an
  upsert operation; Go map iteration order is unspecified, and every property
  proved below about data that flows out of a map is insensitive to that
  order (the values are either re-sorted on a key that is pairwise distinct,
  or summed);
- Go sort.Slice with a strict less function is embedded as an insertion sort
  on the corresponding non-strict relation, which produces a list sorted
  non-decreasingly under that relation, exactly as sort.Slice does;
- the Format layout string 2006-01-02 renders the calendar date of a Go
  time.Time in that value's own location; times built by time.UnixMilli carry
  the process-local zone, so the grouping key is modelled as the floor of
  (timestamp + off) / millisPerDay where off is the local UTC offset in
  milliseconds (0 when the process runs in UTC);
- the fallible HTTP fetch is embedded as an explicit function argument
  returning Except, and the pagination loop receives the sequence of batch
  responses as a list (an exhausted list stands for an empty response).
-/

namespace HLRecon

/-! Generic insertion sort on a boolean relation.  This embeds Go's
sort.Slice: the output is sorted non-decreasingly under the relation, and is
a permutation of the input.  The sort used here is additionally stable; no
result below depends on how ties are broken, except where a hypothesis makes
ties impossible. -/

def insertLe {α : Type} (le : α → α → Bool) (x : α) : List α → List α
  | [] => [x]
  | y :: ys => if le x y then x :: y :: ys else y :: insertLe le x ys

def sortLe {α : Type} (le : α → α → Bool) : List α → List α
  | [] => []
  | x :: xs => insertLe le x (sortLe le xs)

/-- Sorted (non-strictly) with respect to a boolean relation. -/
def SortedB {α : Type} (le : α → α → Bool) (l : List α) : Prop :=
  l.Pairwise (fun a b => le a b = true)

/-! Generic insertion-ordered association list, embedding a Go map.
updateAssoc k f m stores f (lookup k m) at key k: it replaces the value in
place when the key is present and appends a fresh entry otherwise, which is
how every map in the modelled code is written (assign, or append-to-bucket,
or read-modify-write). -/

def lookupA {κ ν : Type} [DecidableEq κ] (k : κ) : List (κ × ν) → Option ν
  | [] => none
  | (k₂, v) :: rest => if k₂ = k then some v else lookupA k rest

def updateAssoc {κ ν : Type} [DecidableEq κ] (k : κ) (f : Option ν → ν) :
    List (κ × ν) → List (κ × ν)
  | [] => [(k, f none)]
  | (k₂, v) :: rest =>
      if k₂ = k then (k₂, f (some v)) :: rest else (k₂, v) :: updateAssoc k f rest

def keysA {κ ν : Type} (m : List (κ × ν)) : List κ := m.map Prod.fst

/-! Data model, from backend/models/trade.go and backend/services/hyperliquid.go.
Timestamps are Unix milliseconds; float64 fields are embedded as Rat. -/

/-- models.Trade.  Time is the UnixMilli value carried by the Go time.Time. -/
structure Trade where
  time : Int
  coin : String
  side : String
  price : Rat
  size : Rat
  value : Rat
  deriving DecidableEq, Repr, Inhabited

/-- models.DailyPnL.  The Go Date string rendered by Format layout 2006-01-02
is represented by its day index (days since the epoch in the formatting
zone); for dates in years 1000-9999 the Go string order coincides with this
numeric order, so sorting on the index embeds sorting on the string. -/
structure DailyPnL where
  date : Int
  tradeCount : Nat
  dailyPnL : Rat
  cumulativePnL : Rat
  deriving DecidableEq, Repr, Inhabited

/-- models.PnLSummary. -/
structure PnLSummary where
  dailyRecords : List DailyPnL
  totalPnL : Rat
  deriving DecidableEq, Repr, Inhabited

/-- services.AccountCache. -/
structure AccountCache where
  trades : List Trade
  lastFetchTime : Int
  cachedDays : Int
  deriving DecidableEq, Repr, Inhabited

/-- The mutable state of services.ReconciliationService that
FetchAndReconcile touches for one account: that account's cache entry (none
before the first fetch) and the derived dailyPnL table.  Entries for other
accounts are untouched by a call for this account, so they are not carried. -/
structure RSState where
  cache : Option AccountCache
  dailyPnL : List (Int × DailyPnL)
  deriving DecidableEq, Repr, Inhabited

/-- services.Position. -/
structure Position where
  buyValue : Rat
  sellValue : Rat
  deriving DecidableEq, Repr, Inhabited

/-- services.FillResponse; the fields the pagination loop and the conversion
consume (Time) plus the payload handed to convertFillToTrade.  The unused
StartPosition, Dir and ClosedPnl strings are omitted. -/
structure Fill where
  time : Int
  coin : String
  side : String
  px : String
  sz : String
  deriving DecidableEq, Repr, Inhabited

/-- time.Hour in milliseconds. -/
def millisPerHour : Int := 3600000

/-- 24 * time.Hour in milliseconds (one requestedDays unit). -/
def millisPerDay : Int := 86400000

/-- config.MaxTradesPerBatch. -/
def MaxTradesPerBatch : Nat := 2000

/-! Operations, from backend/services/hyperliquid.go. -/

/-- The deduplication identity of mergeTrades: the Go map key
fmt.Sprintf of (Time.UnixMilli, Coin, Side), embedded as the triple itself. -/
def tradeKey (t : Trade) : Int × String × String := (t.time, t.coin, t.side)

/-- The comparison of the sort.Slice call in mergeTrades (less is
Time.Before, i.e. strict less on UnixMilli), as the matching non-strict
boolean relation used by the insertion-sort embedding. -/
def timeLeB (a b : Trade) : Bool := decide (a.time ≤ b.time)

/-- One tradeMap assignment in mergeTrades. -/
def insertTrade (m : List ((Int × String × String) × Trade)) (t : Trade) :
    List ((Int × String × String) × Trade) :=
  updateAssoc (tradeKey t) (fun _ => t) m

/-- A loop of tradeMap assignments in mergeTrades. -/
def buildTradeMap (m : List ((Int × String × String) × Trade))
    (ts : List Trade) : List ((Int × String × String) × Trade) :=
  ts.foldl insertTrade m

/-- services.mergeTrades: seed the identity-keyed map from existing, overwrite
with newTrades, then sort the values ascending by time. -/
def mergeTrades (existing newTrades : List Trade) : List Trade :=
  sortLe timeLeB ((buildTradeMap (buildTradeMap [] existing) newTrades).map Prod.snd)

/-- services.filterTradesByTime: keep trades with Time.After(cutoff) or
Time.Equal(cutoff), i.e. cutoff ≤ time. -/
def filterTradesByTime (trades : List Trade) (cutoffTime : Int) : List Trade :=
  trades.filter (fun t => decide (cutoffTime ≤ t.time))

/-- The grouping key Time.Format with layout 2006-01-02 in
calculateDailyPnLFromTrades: the calendar day of the timestamp in the
time.Time value's zone.  Trades built by convertFillToTrade carry the
process-local zone (time.UnixMilli), so the key is the floor of
(timestamp + off) / millisPerDay, where off is that zone's UTC offset in
milliseconds; off = 0 is a process running in UTC. -/
def localDateKey (off t : Int) : Int := (t + off).fdiv millisPerDay

/-- The tradesByDate grouping loop of calculateDailyPnLFromTrades: append
each trade to the bucket of its date key, in input order. -/
def groupTradesByDate (off : Int) (trades : List Trade) :
    List (Int × List Trade) :=
  trades.foldl
    (fun m t => updateAssoc (localDateKey off t.time) (fun o => o.getD [] ++ [t]) m) []

/-- The per-trade body of the coinPositions loop in calculatePnLForDay: a
side B trade adds its value to BuyValue, a side A trade to SellValue, any
other side leaves the position unchanged. -/
def applySide (t : Trade) (p : Position) : Position :=
  if t.side = "B" then { p with buyValue := p.buyValue + t.value }
  else if t.side = "A" then { p with sellValue := p.sellValue + t.value }
  else p

/-- The coinPositions map of calculatePnLForDay: a missing coin entry is
created as the zero Position before the trade is applied. -/
def coinPositions (trades : List Trade) : List (String × Position) :=
  trades.foldl
    (fun m t => updateAssoc t.coin (fun o => applySide t (o.getD ⟨0, 0⟩)) m) []

/-- services.calculatePnLForDay: total SellValue - BuyValue over all coin
positions. -/
def calculatePnLForDay (trades : List Trade) : Rat :=
  ((coinPositions trades).map (fun p => p.2.sellValue - p.2.buyValue)).sum

/-- services.calculateDailyPnLFromTrades: group by date key, then build one
DailyPnL per date (CumulativePnL is the Go zero value at this point). -/
def calculateDailyPnLFromTrades (off : Int) (trades : List Trade) :
    List (Int × DailyPnL) :=
  (groupTradesByDate off trades).map
    (fun kg => (kg.1,
      { date := kg.1, tradeCount := kg.2.length,
        dailyPnL := calculatePnLForDay kg.2, cumulativePnL := 0 }))

/-- The comparison of the sort.Slice call in GetPnLSummary (less is
Date string greater-than), as the matching non-strict boolean relation. -/
def dateGeB (a b : DailyPnL) : Bool := decide (b.date ≤ a.date)

def sumDaily (l : List DailyPnL) : Rat := (l.map (fun r => r.dailyPnL)).sum

/-- The backwards cumulative loop of GetPnLSummary: the record at position i
receives the sum of DailyPnL over positions i through the end. -/
def addCumulative : List DailyPnL → List DailyPnL
  | [] => []
  | r :: rest => { r with cumulativePnL := r.dailyPnL + sumDaily rest } :: addCumulative rest

/-- services.GetPnLSummary: collect the dailyPnL map values, sort descending
by date, fill cumulative P&L from oldest to newest, and total all daily
P&L values. -/
def GetPnLSummary (tbl : List (Int × DailyPnL)) : PnLSummary :=
  let records := tbl.map Prod.snd
  let sorted := sortLe dateGeB records
  let withCum := addCumulative sorted
  { dailyRecords := withCum, totalPnL := sumDaily withCum }

/-- The timestamp of the last fill of a batch (fills[len(fills)-1].Time);
defaults to 0 on an empty batch, where the loop never reads it. -/
def lastTimeD (b : List Fill) : Int :=
  match b.getLast? with
  | some f => f.time
  | none => 0

/-- The observable behaviour of one FetchTradesInRange call: the collected
trades, the list of cursor start times it requested (in order), and how many
rate-limit sleeps it performed. -/
structure FetchLoopResult where
  trades : List Trade
  cursors : List Int
  sleeps : Nat
  deriving DecidableEq, Repr

/-- The sleep guard at the top of the pagination loop: one sleep when
batchCount > 0, none on the first request. -/
def paceCount (batchCount : Nat) : Nat := if batchCount > 0 then 1 else 0

/-- services.FetchTradesInRange, pagination loop.  The successive batch
responses of fetchBatch are supplied as a list; an exhausted list stands for
an empty response.  conv stands for convertFillToTrade, which returns none
on a parse failure (the fill is skipped with a warning). -/
def FetchTradesInRange (conv : Fill → Option Trade) :
    List (List Fill) → Int → Nat → FetchLoopResult
  | [], cursor, n => ⟨[], [cursor], paceCount n⟩
  | b :: rest, cursor, n =>
    if b.isEmpty then ⟨[], [cursor], paceCount n⟩
    else if b.length < MaxTradesPerBatch then ⟨b.filterMap conv, [cursor], paceCount n⟩
    else
      let r := FetchTradesInRange conv rest (lastTimeD b + 1) (n + 1)
      ⟨b.filterMap conv ++ r.trades, cursor :: r.cursors, paceCount n + r.sleeps⟩

/-- A batch on which the pagination loop stops: empty, or strictly smaller
than the page limit. -/
def isTerminalBatch (b : List Fill) : Bool :=
  b.isEmpty || decide (b.length < MaxTradesPerBatch)

/-- Index of the first terminal batch in a response sequence (the sequence
length when there is none). -/
def firstTerminal : List (List Fill) → Nat
  | [] => 0
  | b :: rest => if isTerminalBatch b then 0 else firstTerminal rest + 1

/-- The full-fetch branch of FetchAndReconcile (case 3 in the source): fetch
[now - days * 24h, now] via FetchTrades, replace the cache entry, recompute
the table.  On a fetch error the state is returned as it was at that point
(the Go code returns before any mutation). -/
def fullFetch {ε : Type} (off : Int) (fetch : Int → Int → Except ε (List Trade))
    (st : RSState) (now days : Int) : RSState × Option ε :=
  match fetch (now - days * millisPerDay) now with
  | Except.error e => (st, some e)
  | Except.ok trades =>
      ({ cache := some { trades := trades, lastFetchTime := now, cachedDays := days },
         dailyPnL := calculateDailyPnLFromTrades off trades }, none)

/-- services.FetchAndReconcile for one account.  fetch is the
HyperliquidClient FetchTradesInRange call (start, end in milliseconds); off
is the process-local zone offset used by the date grouping; now is
time.Now in milliseconds.  The returned pair is the state after the call and
the propagated error, if any. -/
def FetchAndReconcile {ε : Type} (off : Int)
    (fetch : Int → Int → Except ε (List Trade)) (st : RSState)
    (now days : Int) : RSState × Option ε :=
  match st.cache with
  | none => fullFetch off fetch st now days
  | some cache =>
    if cache.lastFetchTime ≠ 0 ∧ days ≤ cache.cachedDays ∧
        now - cache.lastFetchTime < millisPerHour then
      match fetch cache.lastFetchTime now with
      | Except.error e => (st, some e)
      | Except.ok newTrades =>
          let merged := if 0 < newTrades.length then mergeTrades cache.trades newTrades
                        else cache.trades
          let cutoffTime := now - days * millisPerDay
          let filteredTrades := filterTradesByTime merged cutoffTime
          ({ cache := some { trades := merged, lastFetchTime := now,
                             cachedDays := cache.cachedDays },
             dailyPnL := calculateDailyPnLFromTrades off filteredTrades }, none)
    else if cache.lastFetchTime ≠ 0 ∧ days = cache.cachedDays ∧
        now - cache.lastFetchTime < millisPerHour then
      match fetch cache.lastFetchTime now with
      | Except.error e => (st, some e)
      | Except.ok newTrades =>
          let merged := if 0 < newTrades.length then mergeTrades cache.trades newTrades
                        else cache.trades
          ({ cache := some { trades := merged, lastFetchTime := now,
                             cachedDays := cache.cachedDays },
             dailyPnL := calculateDailyPnLFromTrades off merged }, none)
    else fullFetch off fetch st now days

/-! Invariants of the cached trade collection (spec section 3), derived
predicates, and the concrete data used by counterexamples and witnesses. -/

/-- Trades in non-decreasing time order. -/
def SortedTrades (l : List Trade) : Prop := l.Pairwise (fun a b => a.time ≤ b.time)

/-- No two trades with an identical identity triple. -/
def KeyNodup (l : List Trade) : Prop := (l.map tradeKey).Nodup

instance (l : List Trade) : Decidable (SortedTrades l) :=
  List.instDecidablePairwise l

instance (l : List Trade) : Decidable (KeyNodup l) :=
  List.nodupDecidable _

/-- Every stored pair of the mergeTrades map carries its value's identity
triple as key. -/
def KeyedMap (m : List ((Int × String × String) × Trade)) : Prop :=
  ∀ p ∈ m, p.1 = tradeKey p.2

/-- Strictly increasing timestamps; implies both cache invariants and pins
the merge output order regardless of map iteration or sort tie-breaking. -/
def StrictSortedTrades (l : List Trade) : Prop :=
  l.Pairwise (fun a b => a.time < b.time)

instance (l : List Trade) : Decidable (StrictSortedTrades l) :=
  List.instDecidablePairwise l

/-- The net P&L contribution of one trade: its value on a sell (side A),
the negated value on a buy (side B), zero otherwise. -/
def tradeContrib (t : Trade) : Rat :=
  if t.side = "B" then -t.value else if t.side = "A" then t.value else 0

/-- Total SellValue - BuyValue over a coin-position map. -/
def posSum (m : List (String × Position)) : Rat :=
  (m.map (fun p => p.2.sellValue - p.2.buyValue)).sum

/-- Appending a run of trades to an optional grouping bucket. -/
def optAppend (o : Option (List Trade)) (l : List Trade) : Option (List Trade) :=
  match o, l with
  | none, [] => none
  | none, x :: xs => some (x :: xs)
  | some g, l => some (g ++ l)

/-- The cache invariant of claim C4, over the optional cache entry. -/
def CacheInv (st : RSState) : Prop :=
  ∀ c, st.cache = some c → SortedTrades c.trades ∧ KeyNodup c.trades

/-- A buy fill: 1 BTC at 50000, at millisecond 1000. -/
def wTradeB : Trade :=
  { time := 1000, coin := "BTC", side := "B", price := 50000, size := 1, value := 50000 }

/-- A sell fill: 1 BTC at 51000, at millisecond 2000. -/
def wTradeA : Trade :=
  { time := 2000, coin := "BTC", side := "A", price := 51000, size := 1, value := 51000 }

/-- A fill whose side is neither B nor A. -/
def wTradeX : Trade :=
  { time := 2500, coin := "ETH", side := "X", price := 10, size := 2, value := 20 }

/-- 1970-01-01 23:00 UTC. -/
def c2t1 : Trade :=
  { time := 82800000, coin := "BTC", side := "B", price := 1, size := 1, value := 1 }

/-- 1970-01-01 01:00 UTC, the same UTC calendar day as c2t1. -/
def c2t2 : Trade :=
  { time := 3600000, coin := "BTC", side := "A", price := 1, size := 1, value := 1 }

/-- The moment of the C1 scenario, in Unix milliseconds. -/
def c1Now : Int := 1700000000000

/-- A cached trade slightly older than (c1Now - 7 days). -/
def c1OldTrade : Trade :=
  { time := 1700000000000 - 7 * 86400000 - 1000, coin := "BTC", side := "B",
    price := 1, size := 1, value := 1 }

/-- A cached trade one second before c1Now. -/
def c1NewTrade : Trade :=
  { time := 1700000000000 - 1000, coin := "BTC", side := "A",
    price := 2, size := 1, value := 2 }

/-- A fresh 7-day cache holding both trades, last fetched 30 minutes ago. -/
def c1State : RSState :=
  { cache := some ⟨[c1OldTrade, c1NewTrade], 1700000000000 - 1800000, 7⟩,
    dailyPnL := [] }

theorem perm_insertLe {α : Type} (le : α → α → Bool) (x : α) (l : List α) :
    (insertLe le x l).Perm (x :: l) := by
  induction l with
  | nil => exact List.Perm.refl _
  | cons y ys ih =>
    by_cases h : le x y = true
    · simp [insertLe, h]
    · simp only [insertLe, h, if_false]
      exact (ih.cons y).trans (List.Perm.swap x y ys)

theorem perm_sortLe {α : Type} (le : α → α → Bool) (l : List α) :
    (sortLe le l).Perm l := by
  induction l with
  | nil => exact List.Perm.refl _
  | cons x xs ih =>
    exact (perm_insertLe le x (sortLe le xs)).trans (ih.cons x)

theorem mem_insertLe {α : Type} (le : α → α → Bool) (x a : α) (l : List α) :
    a ∈ insertLe le x l ↔ a = x ∨ a ∈ l := by
  rw [(perm_insertLe le x l).mem_iff, List.mem_cons]

theorem sorted_insertLe {α : Type} {le : α → α → Bool}
    (htot : ∀ a b, le a b = true ∨ le b a = true)
    (htr : ∀ a b c, le a b = true → le b c = true → le a c = true)
    (x : α) {l : List α} (h : SortedB le l) : SortedB le (insertLe le x l) := by
  induction l with
  | nil => simp [insertLe, SortedB]
  | cons y ys ih =>
    rw [SortedB, List.pairwise_cons] at h
    by_cases hxy : le x y = true
    · simp only [insertLe, hxy, if_true, SortedB, List.pairwise_cons]
      refine ⟨?_, ?_, h.2⟩
      · intro b hb
        rcases List.mem_cons.mp hb with hb | hb
        · exact hb ▸ hxy
        · exact htr x y b hxy (h.1 b hb)
      · exact h.1
    · simp only [insertLe, hxy, if_false, SortedB, List.pairwise_cons]
      constructor
      · intro b hb
        rcases (mem_insertLe le x b ys).mp hb with hb | hb
        · rcases htot x y with hc | hc
          · exact absurd hc hxy
          · rw [hb]
            exact hc
        · exact h.1 b hb
      · exact ih h.2

theorem sorted_sortLe {α : Type} {le : α → α → Bool}
    (htot : ∀ a b, le a b = true ∨ le b a = true)
    (htr : ∀ a b c, le a b = true → le b c = true → le a c = true)
    (l : List α) : SortedB le (sortLe le l) := by
  induction l with
  | nil => simp [sortLe, SortedB]
  | cons x xs ih => exact sorted_insertLe htot htr x ih

theorem sortLe_eq_self {α : Type} {le : α → α → Bool} {l : List α}
    (h : SortedB le l) : sortLe le l = l := by
  induction l with
  | nil => rfl
  | cons x xs ih =>
    rw [SortedB, List.pairwise_cons] at h
    rw [sortLe, ih h.2]
    cases xs with
    | nil => rfl
    | cons y ys =>
      have hxy : le x y = true := h.1 y (List.mem_cons_self y ys)
      simp [insertLe, hxy]

theorem keysA_nil {κ ν : Type} : keysA ([] : List (κ × ν)) = [] := rfl

theorem keysA_cons {κ ν : Type} (k : κ) (v : ν) (m : List (κ × ν)) :
    keysA ((k, v) :: m) = k :: keysA m := rfl

theorem lookupA_updateAssoc_self {κ ν : Type} [DecidableEq κ]
    (k : κ) (f : Option ν → ν) (m : List (κ × ν)) :
    lookupA k (updateAssoc k f m) = some (f (lookupA k m)) := by
  induction m with
  | nil => simp [lookupA, updateAssoc]
  | cons p rest ih =>
    obtain ⟨k₂, v⟩ := p
    by_cases h : k₂ = k
    · simp [lookupA, updateAssoc, h]
    · simp [lookupA, updateAssoc, h, ih]

theorem lookupA_updateAssoc_ne {κ ν : Type} [DecidableEq κ]
    {k k₃ : κ} (hne : k ≠ k₃) (f : Option ν → ν) (m : List (κ × ν)) :
    lookupA k₃ (updateAssoc k f m) = lookupA k₃ m := by
  induction m with
  | nil => simp [lookupA, updateAssoc, hne]
  | cons p rest ih =>
    obtain ⟨k₂, v⟩ := p
    by_cases h : k₂ = k
    · subst h
      simp [lookupA, updateAssoc, hne]
    · simp only [updateAssoc, h, if_false]
      by_cases h₃ : k₂ = k₃
      · simp [lookupA, h₃]
      · simp [lookupA, h₃, ih]

theorem lookupA_eq_none_iff {κ ν : Type} [DecidableEq κ]
    (k : κ) (m : List (κ × ν)) : lookupA k m = none ↔ k ∉ keysA m := by
  induction m with
  | nil => simp [lookupA, keysA_nil]
  | cons p rest ih =>
    obtain ⟨k₂, v⟩ := p
    rw [keysA_cons]
    by_cases h : k₂ = k
    · simp [lookupA, h]
    · simp [lookupA, h, ih, Ne.symm h]

theorem keysA_updateAssoc_mem {κ ν : Type} [DecidableEq κ]
    {k : κ} (f : Option ν → ν) {m : List (κ × ν)} (hk : k ∈ keysA m) :
    keysA (updateAssoc k f m) = keysA m := by
  induction m with
  | nil => simp [keysA_nil] at hk
  | cons p rest ih =>
    obtain ⟨k₂, v⟩ := p
    rw [keysA_cons] at hk
    by_cases h : k₂ = k
    · rw [updateAssoc, if_pos h, keysA_cons, keysA_cons]
    · have hk₂ : k ∈ keysA rest := by
        rcases List.mem_cons.mp hk with hc | hc
        · exact absurd hc.symm h
        · exact hc
      rw [updateAssoc, if_neg h, keysA_cons, keysA_cons, ih hk₂]

theorem keysA_updateAssoc_not_mem {κ ν : Type} [DecidableEq κ]
    {k : κ} (f : Option ν → ν) {m : List (κ × ν)} (hk : k ∉ keysA m) :
    keysA (updateAssoc k f m) = keysA m ++ [k] := by
  induction m with
  | nil => simp [keysA_nil, keysA_cons, updateAssoc]
  | cons p rest ih =>
    obtain ⟨k₂, v⟩ := p
    rw [keysA_cons] at hk
    have h : k₂ ≠ k := by
      intro hc
      exact hk (by rw [hc]; exact List.mem_cons_self k (keysA rest))
    have hk₂ : k ∉ keysA rest := fun hc => hk (List.mem_cons_of_mem k₂ hc)
    rw [updateAssoc, if_neg h, keysA_cons, keysA_cons, ih hk₂]
    rfl

theorem nodup_keysA_updateAssoc {κ ν : Type} [DecidableEq κ]
    (k : κ) (f : Option ν → ν) {m : List (κ × ν)} (h : (keysA m).Nodup) :
    (keysA (updateAssoc k f m)).Nodup := by
  by_cases hk : k ∈ keysA m
  · rw [keysA_updateAssoc_mem f hk]
    exact h
  · rw [keysA_updateAssoc_not_mem f hk]
    simp only [List.nodup_append, List.nodup_cons, List.nodup_nil]
    exact ⟨h, by simp, by simpa using fun hc => hk hc⟩

theorem length_updateAssoc_mem {κ ν : Type} [DecidableEq κ]
    {k : κ} (f : Option ν → ν) {m : List (κ × ν)} (hk : k ∈ keysA m) :
    (updateAssoc k f m).length = m.length := by
  induction m with
  | nil => simp [keysA_nil] at hk
  | cons p rest ih =>
    obtain ⟨k₂, v⟩ := p
    rw [keysA_cons] at hk
    by_cases h : k₂ = k
    · simp [updateAssoc, h]
    · have hk₂ : k ∈ keysA rest := by
        rcases List.mem_cons.mp hk with hc | hc
        · exact absurd hc.symm h
        · exact hc
      simp [updateAssoc, h, ih hk₂]

theorem length_updateAssoc_not_mem {κ ν : Type} [DecidableEq κ]
    {k : κ} (f : Option ν → ν) {m : List (κ × ν)} (hk : k ∉ keysA m) :
    (updateAssoc k f m).length = m.length + 1 := by
  induction m with
  | nil => simp [updateAssoc]
  | cons p rest ih =>
    obtain ⟨k₂, v⟩ := p
    rw [keysA_cons] at hk
    have h : k₂ ≠ k := by
      intro hc
      exact hk (by rw [hc]; exact List.mem_cons_self k (keysA rest))
    have hk₂ : k ∉ keysA rest := fun hc => hk (List.mem_cons_of_mem k₂ hc)
    simp [updateAssoc, h, ih hk₂]

theorem updateAssoc_not_mem_eq_append {κ ν : Type} [DecidableEq κ]
    {k : κ} (f : Option ν → ν) {m : List (κ × ν)} (hk : k ∉ keysA m) :
    updateAssoc k f m = m ++ [(k, f none)] := by
  induction m with
  | nil => simp [updateAssoc]
  | cons p rest ih =>
    obtain ⟨k₂, v⟩ := p
    rw [keysA_cons] at hk
    have h : k₂ ≠ k := by
      intro hc
      exact hk (by rw [hc]; exact List.mem_cons_self k (keysA rest))
    have hk₂ : k ∉ keysA rest := fun hc => hk (List.mem_cons_of_mem k₂ hc)
    simp [updateAssoc, h, ih hk₂]

theorem updateAssoc_eq_self {κ ν : Type} [DecidableEq κ]
    {k : κ} {v : ν} {f : Option ν → ν} {m : List (κ × ν)}
    (hl : lookupA k m = some v) (hf : f (some v) = v) :
    updateAssoc k f m = m := by
  induction m with
  | nil => simp [lookupA] at hl
  | cons p rest ih =>
    obtain ⟨k₂, w⟩ := p
    by_cases h : k₂ = k
    · rw [lookupA, if_pos h] at hl
      have hw : w = v := Option.some.inj hl
      subst hw
      simp [updateAssoc, h, hf]
    · rw [lookupA, if_neg h] at hl
      simp [updateAssoc, h, ih hl]

theorem timeLeB_total : ∀ a b : Trade, timeLeB a b = true ∨ timeLeB b a = true := by
  intro a b
  simp only [timeLeB, decide_eq_true_eq]
  omega

theorem timeLeB_trans : ∀ a b c : Trade,
    timeLeB a b = true → timeLeB b c = true → timeLeB a c = true := by
  intro a b c
  simp only [timeLeB, decide_eq_true_eq]
  omega

theorem sortedB_iff_sortedTrades (l : List Trade) :
    SortedB timeLeB l ↔ SortedTrades l := by
  constructor
  · exact List.Pairwise.imp (by intro a b h; simpa [timeLeB] using h)
  · exact List.Pairwise.imp (by intro a b h; simpa [timeLeB] using h)

theorem mergeTrades_sortedTrades (a b : List Trade) :
    SortedTrades (mergeTrades a b) :=
  (sortedB_iff_sortedTrades _).mp (sorted_sortLe timeLeB_total timeLeB_trans _)

theorem mem_updateAssoc {κ ν : Type} [DecidableEq κ]
    {k : κ} {f : Option ν → ν} {m : List (κ × ν)} {p : κ × ν}
    (hp : p ∈ updateAssoc k f m) : p ∈ m ∨ ∃ o, p = (k, f o) := by
  induction m with
  | nil =>
    simp only [updateAssoc, List.mem_singleton] at hp
    exact Or.inr ⟨none, hp⟩
  | cons q rest ih =>
    obtain ⟨k₂, v⟩ := q
    by_cases h : k₂ = k
    · rw [updateAssoc, if_pos h] at hp
      rcases List.mem_cons.mp hp with hc | hc
      · exact Or.inr ⟨some v, by rw [hc, h]⟩
      · exact Or.inl (List.mem_cons_of_mem _ hc)
    · rw [updateAssoc, if_neg h] at hp
      rcases List.mem_cons.mp hp with hc | hc
      · exact Or.inl (hc ▸ List.mem_cons_self _ _)
      · rcases ih hc with hd | hd
        · exact Or.inl (List.mem_cons_of_mem _ hd)
        · exact Or.inr hd

theorem keyedMap_insertTrade {m : List ((Int × String × String) × Trade)}
    (h : KeyedMap m) (t : Trade) : KeyedMap (insertTrade m t) := by
  intro p hp
  rcases mem_updateAssoc hp with hc | ⟨o, hc⟩
  · exact h p hc
  · rw [hc]

theorem keyedMap_buildTradeMap {m : List ((Int × String × String) × Trade)}
    (h : KeyedMap m) (ts : List Trade) : KeyedMap (buildTradeMap m ts) := by
  induction ts generalizing m with
  | nil => exact h
  | cons t rest ih => exact ih (keyedMap_insertTrade h t)

theorem nodup_keysA_buildTradeMap {m : List ((Int × String × String) × Trade)}
    (h : (keysA m).Nodup) (ts : List Trade) :
    (keysA (buildTradeMap m ts)).Nodup := by
  induction ts generalizing m with
  | nil => exact h
  | cons t rest ih => exact ih (nodup_keysA_updateAssoc _ _ h)

theorem map_tradeKey_values {m : List ((Int × String × String) × Trade)}
    (h : KeyedMap m) : (m.map Prod.snd).map tradeKey = keysA m := by
  induction m with
  | nil => rfl
  | cons p rest ih =>
    obtain ⟨k, v⟩ := p
    have hk : k = tradeKey v := h (k, v) (List.mem_cons_self _ _)
    have htail : KeyedMap rest := fun q hq => h q (List.mem_cons_of_mem _ hq)
    simp [keysA_cons, ih htail, hk]

theorem mergeTrades_keyNodup (a b : List Trade) : KeyNodup (mergeTrades a b) := by
  have hkeyed : KeyedMap (buildTradeMap (buildTradeMap [] a) b) :=
    keyedMap_buildTradeMap (keyedMap_buildTradeMap (by intro p hp; cases hp) a) b
  have hnodup : (keysA (buildTradeMap (buildTradeMap [] a) b)).Nodup :=
    nodup_keysA_buildTradeMap (nodup_keysA_buildTradeMap (by simp [keysA_nil]) a) b
  have hvals : ((buildTradeMap (buildTradeMap [] a) b).map Prod.snd).map tradeKey =
      keysA (buildTradeMap (buildTradeMap [] a) b) := map_tradeKey_values hkeyed
  have hperm := (perm_sortLe timeLeB
    ((buildTradeMap (buildTradeMap [] a) b).map Prod.snd)).map tradeKey
  rw [KeyNodup, mergeTrades, hperm.nodup_iff, hvals]
  exact hnodup

theorem buildTradeMap_fresh {ts : List Trade}
    (hnd : KeyNodup ts) :
    ∀ m : List ((Int × String × String) × Trade),
      (∀ t ∈ ts, tradeKey t ∉ keysA m) →
      buildTradeMap m ts = m ++ ts.map (fun t => (tradeKey t, t)) := by
  induction ts with
  | nil => intro m _; simp [buildTradeMap]
  | cons t rest ih =>
    intro m hfresh
    rw [KeyNodup, List.map_cons, List.nodup_cons] at hnd
    have hstep : insertTrade m t = m ++ [(tradeKey t, t)] :=
      updateAssoc_not_mem_eq_append _ (hfresh t (List.mem_cons_self _ _))
    have hrest : ∀ u ∈ rest, tradeKey u ∉ keysA (m ++ [(tradeKey t, t)]) := by
      intro u hu hc
      have : keysA (m ++ [(tradeKey t, t)]) = keysA m ++ [tradeKey t] := by
        simp [keysA]
      rw [this, List.mem_append, List.mem_singleton] at hc
      rcases hc with hc | hc
      · exact hfresh u (List.mem_cons_of_mem _ hu) hc
      · exact hnd.1 (hc ▸ List.mem_map_of_mem tradeKey hu)
    calc buildTradeMap m (t :: rest)
        = buildTradeMap (m ++ [(tradeKey t, t)]) rest := by
          rw [buildTradeMap, List.foldl_cons, hstep]; rfl
      _ = m ++ [(tradeKey t, t)] ++ rest.map (fun u => (tradeKey u, u)) :=
          ih hnd.2 _ hrest
      _ = m ++ (t :: rest).map (fun u => (tradeKey u, u)) := by simp

theorem buildTradeMap_nil_of_keyNodup {ts : List Trade} (hnd : KeyNodup ts) :
    buildTradeMap [] ts = ts.map (fun t => (tradeKey t, t)) := by
  have := buildTradeMap_fresh hnd [] (by intro t _ hc; simp [keysA_nil] at hc)
  simpa using this

theorem keysA_map_pair (ts : List Trade) :
    keysA (ts.map (fun t => (tradeKey t, t))) = ts.map tradeKey := by
  simp [keysA, List.map_map]

theorem lookupA_map_pair_self {ts : List Trade} (hnd : KeyNodup ts) {t : Trade}
    (ht : t ∈ ts) :
    lookupA (tradeKey t) (ts.map (fun u => (tradeKey u, u))) = some t := by
  induction ts with
  | nil => cases ht
  | cons u rest ih =>
    rw [KeyNodup, List.map_cons, List.nodup_cons] at hnd
    by_cases hk : tradeKey u = tradeKey t
    · have htu : t = u := by
        rcases List.mem_cons.mp ht with hc | hc
        · exact hc
        · exact absurd (hk ▸ List.mem_map_of_mem tradeKey hc) hnd.1
      simp [lookupA, hk, htu]
    · have hc : t ∈ rest := by
        rcases List.mem_cons.mp ht with hd | hd
        · exact absurd (by rw [hd]) hk
        · exact hd
      simp [lookupA, hk, ih hnd.2 hc]

theorem buildTradeMap_fixed {ts : List Trade} :
    ∀ m : List ((Int × String × String) × Trade),
      (∀ t ∈ ts, lookupA (tradeKey t) m = some t) → buildTradeMap m ts = m := by
  induction ts with
  | nil => intro m _; rfl
  | cons t rest ih =>
    intro m h
    have hstep : insertTrade m t = m :=
      updateAssoc_eq_self (h t (List.mem_cons_self _ _)) rfl
    rw [buildTradeMap, List.foldl_cons, hstep]
    exact ih m (fun u hu => h u (List.mem_cons_of_mem _ hu))

theorem buildTradeMap_mem_keys {ts : List Trade} :
    ∀ m : List ((Int × String × String) × Trade),
      (∀ t ∈ ts, tradeKey t ∈ keysA m) →
      (buildTradeMap m ts).length = m.length ∧
        keysA (buildTradeMap m ts) = keysA m := by
  induction ts with
  | nil => intro m _; exact ⟨rfl, rfl⟩
  | cons t rest ih =>
    intro m h
    have hmem : tradeKey t ∈ keysA m := h t (List.mem_cons_self _ _)
    have hlen : (insertTrade m t).length = m.length := length_updateAssoc_mem _ hmem
    have hkeys : keysA (insertTrade m t) = keysA m := keysA_updateAssoc_mem _ hmem
    have hrest : ∀ u ∈ rest, tradeKey u ∈ keysA (insertTrade m t) := by
      intro u hu
      rw [hkeys]
      exact h u (List.mem_cons_of_mem _ hu)
    have := ih (insertTrade m t) hrest
    rw [buildTradeMap, List.foldl_cons]
    exact ⟨this.1.trans hlen, this.2.trans hkeys⟩

theorem strict_sortedTrades {l : List Trade} (h : StrictSortedTrades l) :
    SortedTrades l :=
  h.imp (fun hab => le_of_lt hab)

theorem strict_keyNodup {l : List Trade} (h : StrictSortedTrades l) :
    KeyNodup l := by
  rw [KeyNodup, List.Nodup, List.pairwise_map]
  refine h.imp ?_
  intro a b hab hc
  have : a.time = b.time := congrArg Prod.fst hc
  omega

/-! The P&L of one day equals the plain sum of per-trade contributions. -/

theorem applySide_val (t : Trade) (p : Position) :
    (applySide t p).sellValue - (applySide t p).buyValue =
      (p.sellValue - p.buyValue) + tradeContrib t := by
  by_cases hB : t.side = "B"
  · simp [applySide, tradeContrib, hB]
    ring
  · by_cases hA : t.side = "A"
    · simp [applySide, tradeContrib, hB, hA]
      ring
    · simp [applySide, tradeContrib, hB, hA]

theorem posSum_updateAssoc {k : String} {f : Option Position → Position}
    {d : Rat}
    (hnone : (f none).sellValue - (f none).buyValue = d)
    (hsome : ∀ p : Position, (f (some p)).sellValue - (f (some p)).buyValue =
      (p.sellValue - p.buyValue) + d)
    (m : List (String × Position)) :
    posSum (updateAssoc k f m) = posSum m + d := by
  simp only [posSum]
  induction m with
  | nil => simp [updateAssoc, hnone]
  | cons q rest ih =>
    obtain ⟨k₂, v⟩ := q
    by_cases h : k₂ = k
    · simp only [updateAssoc, h, if_true, List.map_cons, List.sum_cons, hsome v]
      ring
    · simp only [updateAssoc, h, if_false, List.map_cons, List.sum_cons]
      rw [ih]
      ring

theorem coinPositions_posSum (ts : List Trade) :
    ∀ m : List (String × Position),
      posSum (ts.foldl
        (fun m t => updateAssoc t.coin (fun o => applySide t (o.getD ⟨0, 0⟩)) m) m) =
      posSum m + (ts.map tradeContrib).sum := by
  induction ts with
  | nil => intro m; simp
  | cons t rest ih =>
    intro m
    rw [List.foldl_cons, ih, List.map_cons, List.sum_cons]
    have hstep : posSum (updateAssoc t.coin
        (fun o => applySide t (o.getD ⟨0, 0⟩)) m) = posSum m + tradeContrib t := by
      refine posSum_updateAssoc ?_ ?_ m
      · have := applySide_val t ⟨0, 0⟩
        simpa using this
      · intro p
        exact applySide_val t p
    rw [hstep]
    ring

theorem calculatePnLForDay_eq_sum (ts : List Trade) :
    calculatePnLForDay ts = (ts.map tradeContrib).sum := by
  have h := coinPositions_posSum ts []
  simp only [posSum, List.map_nil, List.sum_nil, zero_add] at h
  simpa [calculatePnLForDay, coinPositions, posSum] using h

/-! Structure of the tradesByDate grouping. -/

theorem optAppend_nil (o : Option (List Trade)) : optAppend o [] = o := by
  cases o <;> simp [optAppend]

theorem lookupA_groupFold (off : Int) (ts : List Trade) :
    ∀ (m : List (Int × List Trade)) (k : Int),
      lookupA k (ts.foldl
        (fun m t =>
          updateAssoc (localDateKey off t.time) (fun o => o.getD [] ++ [t]) m) m) =
      optAppend (lookupA k m)
        (ts.filter (fun t => decide (localDateKey off t.time = k))) := by
  induction ts with
  | nil => intro m k; simp [optAppend_nil]
  | cons t rest ih =>
    intro m k
    rw [List.foldl_cons, List.filter_cons]
    by_cases hk : localDateKey off t.time = k
    · rw [ih]
      have h1 : lookupA k
          (updateAssoc (localDateKey off t.time) (fun o => o.getD [] ++ [t]) m) =
          some ((lookupA k m).getD [] ++ [t]) := by
        rw [← hk]
        exact lookupA_updateAssoc_self _ _ m
      rw [h1, if_pos (by simp [hk])]
      cases hl : lookupA k m with
      | none => simp [optAppend]
      | some g => simp [optAppend]
    · rw [ih]
      have h1 : lookupA k
          (updateAssoc (localDateKey off t.time) (fun o => o.getD [] ++ [t]) m) =
          lookupA k m := lookupA_updateAssoc_ne hk _ m
      rw [h1, if_neg (by simp [hk])]

theorem lookupA_groupTradesByDate (off : Int) (ts : List Trade) (k : Int) :
    lookupA k (groupTradesByDate off ts) =
      optAppend none (ts.filter (fun t => decide (localDateKey off t.time = k))) := by
  rw [groupTradesByDate]
  rw [lookupA_groupFold off ts [] k]
  rfl

theorem nodup_keysA_groupTradesByDate (off : Int) (ts : List Trade) :
    (keysA (groupTradesByDate off ts)).Nodup := by
  rw [groupTradesByDate]
  have : ∀ (l : List Trade) (m : List (Int × List Trade)), (keysA m).Nodup →
      (keysA (l.foldl
        (fun m t =>
          updateAssoc (localDateKey off t.time) (fun o => o.getD [] ++ [t]) m) m)).Nodup := by
    intro l
    induction l with
    | nil => intro m h; exact h
    | cons t rest ih =>
      intro m h
      exact ih _ (nodup_keysA_updateAssoc _ _ h)
  exact this ts [] (by simp [keysA_nil])

theorem lookupA_map_keyed {κ ν ν₂ : Type} [DecidableEq κ]
    (F : κ → ν → ν₂) (m : List (κ × ν)) (k : κ) :
    lookupA k (m.map (fun p => (p.1, F p.1 p.2))) = (lookupA k m).map (F k) := by
  induction m with
  | nil => rfl
  | cons p rest ih =>
    obtain ⟨k₂, v⟩ := p
    by_cases h : k₂ = k
    · subst h
      simp [lookupA]
    · simp [lookupA, h, ih]

theorem keysA_map_keyed {κ ν ν₂ : Type}
    (F : κ → ν → ν₂) (m : List (κ × ν)) :
    keysA (m.map (fun p => (p.1, F p.1 p.2))) = keysA m := by
  simp [keysA, List.map_map]

/-! Structure of the cumulative loop in GetPnLSummary. -/

theorem sumDaily_nil : sumDaily [] = 0 := rfl

theorem sumDaily_cons (r : DailyPnL) (rest : List DailyPnL) :
    sumDaily (r :: rest) = r.dailyPnL + sumDaily rest := by
  simp [sumDaily]

theorem sumDaily_addCumulative (l : List DailyPnL) :
    sumDaily (addCumulative l) = sumDaily l := by
  induction l with
  | nil => rfl
  | cons r rest ih =>
    rw [addCumulative, sumDaily_cons, sumDaily_cons, ih]

theorem mem_addCumulative {l : List DailyPnL} {r : DailyPnL}
    (hr : r ∈ addCumulative l) :
    ∃ z ∈ l, r.date = z.date ∧ r.dailyPnL = z.dailyPnL := by
  induction l with
  | nil => cases hr
  | cons x rest ih =>
    rw [addCumulative] at hr
    rcases List.mem_cons.mp hr with hc | hc
    · exact ⟨x, List.mem_cons_self _ _, by rw [hc], by rw [hc]⟩
    · obtain ⟨z, hz, h1, h2⟩ := ih hc
      exact ⟨z, List.mem_cons_of_mem _ hz, h1, h2⟩

theorem addCumulative_pairwise_dateGe {l : List DailyPnL}
    (h : l.Pairwise (fun a b => b.date ≤ a.date)) :
    (addCumulative l).Pairwise (fun a b => b.date ≤ a.date) := by
  induction l with
  | nil => exact List.Pairwise.nil
  | cons x rest ih =>
    rw [List.pairwise_cons] at h
    rw [addCumulative, List.pairwise_cons]
    constructor
    · intro y hy
      obtain ⟨z, hz, h1, _⟩ := mem_addCumulative hy
      rw [h1]
      exact h.1 z hz
    · exact ih h.2

theorem addCumulative_cum_filter {l : List DailyPnL}
    (h : l.Pairwise (fun a b => b.date < a.date)) :
    ∀ r ∈ addCumulative l,
      r.cumulativePnL =
        sumDaily ((addCumulative l).filter (fun x => decide (x.date ≤ r.date))) := by
  induction l with
  | nil => intro r hr; cases hr
  | cons x rest ih =>
    rw [List.pairwise_cons] at h
    intro r hr
    rw [addCumulative] at hr ⊢
    rcases List.mem_cons.mp hr with hc | hc
    · have hrdate : r.date = x.date := by rw [hc]
      have hall : ∀ y ∈ addCumulative rest, decide (y.date ≤ r.date) = true := by
        intro y hy
        obtain ⟨z, hz, h1, _⟩ := mem_addCumulative hy
        have hzx : z.date < x.date := h.1 z hz
        simp only [decide_eq_true_eq, hrdate, h1]
        omega
      have hx : decide (({ x with cumulativePnL := x.dailyPnL + sumDaily rest } :
          DailyPnL).date ≤ r.date) = true := by
        simp only [decide_eq_true_eq, hrdate]
        exact le_refl x.date
      rw [List.filter_cons, if_pos hx, List.filter_eq_self.mpr hall,
        sumDaily_cons, sumDaily_addCumulative, hc]
    · have hrdate : r.date < x.date := by
        obtain ⟨z, hz, h1, _⟩ := mem_addCumulative hc
        rw [h1]
        exact h.1 z hz
      have hx : ¬ (decide (({ x with cumulativePnL := x.dailyPnL + sumDaily rest } :
          DailyPnL).date ≤ r.date) = true) := by
        simp only [decide_eq_true_eq]
        show ¬ (x.date ≤ r.date)
        omega
      rw [List.filter_cons, if_neg hx]
      exact ih h.2 r hc

theorem addCumulative_head {l : List DailyPnL} {r : DailyPnL}
    {rest : List DailyPnL} (h : addCumulative l = r :: rest) :
    r.cumulativePnL = sumDaily l := by
  cases l with
  | nil => cases h
  | cons x xs =>
    rw [addCumulative] at h
    have hr : r = { x with cumulativePnL := x.dailyPnL + sumDaily xs } :=
      (List.cons.inj h).1.symm
    rw [hr, sumDaily_cons]

/-! Behaviour of the pagination loop, for every possible sequence of batch
responses: the loop consumes exactly the prefix through the first terminal
batch (empty, or shorter than the page limit), processes each consumed
batch, requests once per consumed batch starting at the given cursor and
then at (last fill time + 1 ms) of the previous batch, and sleeps once
before every request except the first. -/

theorem fetchLoop_characterization (conv : Fill → Option Trade) :
    ∀ (bs : List (List Fill)) (cursor : Int) (n : Nat),
      FetchTradesInRange conv bs cursor n =
        { trades := ((bs.take (firstTerminal bs + 1)).map
            (fun b => b.filterMap conv)).flatten,
          cursors := cursor :: (bs.take (firstTerminal bs)).map
            (fun b => lastTimeD b + 1),
          sleeps := paceCount n + (bs.take (firstTerminal bs)).length } := by
  intro bs
  induction bs with
  | nil =>
    intro cursor n
    simp [FetchTradesInRange, firstTerminal]
  | cons b rest ih =>
    intro cursor n
    by_cases hemp : b.isEmpty = true
    · have hterm : isTerminalBatch b = true := by simp [isTerminalBatch, hemp]
      have hb : b = [] := List.isEmpty_iff.mp hemp
      rw [FetchTradesInRange, if_pos hemp]
      rw [firstTerminal, if_pos hterm]
      simp [hb]
    · by_cases hlen : b.length < MaxTradesPerBatch
      · have hterm : isTerminalBatch b = true := by
          simp [isTerminalBatch, hlen]
        rw [FetchTradesInRange, if_neg hemp, if_pos hlen]
        rw [firstTerminal, if_pos hterm]
        simp
      · have hterm : ¬ isTerminalBatch b = true := by
          simp [isTerminalBatch, hemp, hlen]
        rw [FetchTradesInRange, if_neg hemp, if_neg hlen]
        rw [firstTerminal, if_neg hterm]
        rw [ih (lastTimeD b + 1) (n + 1)]
        simp only [List.take_succ_cons, List.map_cons, List.flatten_cons,
          List.length_cons, FetchLoopResult.mk.injEq, paceCount]
        refine ⟨trivial, trivial, ?_⟩
        split_ifs <;> omega

theorem dateGeB_total : ∀ a b : DailyPnL, dateGeB a b = true ∨ dateGeB b a = true := by
  intro a b
  simp only [dateGeB, decide_eq_true_eq]
  omega

theorem dateGeB_trans : ∀ a b c : DailyPnL,
    dateGeB a b = true → dateGeB b c = true → dateGeB a c = true := by
  intro a b c
  simp only [dateGeB, decide_eq_true_eq]
  omega

theorem getPnLSummary_eq (tbl : List (Int × DailyPnL)) :
    GetPnLSummary tbl =
      { dailyRecords := addCumulative (sortLe dateGeB (tbl.map Prod.snd)),
        totalPnL := sumDaily (addCumulative (sortLe dateGeB (tbl.map Prod.snd))) } :=
  rfl

theorem dates_calcDaily (off : Int) (ts : List Trade) :
    ((calculateDailyPnLFromTrades off ts).map Prod.snd).map (fun r => r.date) =
      keysA (groupTradesByDate off ts) := by
  rw [calculateDailyPnLFromTrades]
  simp only [List.map_map, keysA]
  rfl

theorem fullFetch_inv {ε : Type} (off : Int)
    (fetch : Int → Int → Except ε (List Trade)) (st : RSState)
    (now days : Int) (st₂ : RSState)
    (hfetch : ∀ s t l, fetch s t = Except.ok l → SortedTrades l ∧ KeyNodup l)
    (hok : fullFetch off fetch st now days = (st₂, none)) : CacheInv st₂ := by
  cases hfr : fetch (now - days * millisPerDay) now with
  | error e =>
    rw [fullFetch, hfr] at hok
    exact absurd (congrArg Prod.snd hok) (by simp)
  | ok l =>
    rw [fullFetch, hfr] at hok
    have hst : (⟨some ⟨l, now, days⟩, calculateDailyPnLFromTrades off l⟩ :
        RSState) = st₂ := congrArg Prod.fst hok
    intro c hc
    rw [← hst] at hc
    have hce : (⟨l, now, days⟩ : AccountCache) = c := Option.some.inj hc
    rw [← hce]
    exact hfetch _ _ l hfr

/-! Claim theorems. -/

/-- C2, counterexample: the grouping key is the calendar day in the
process-local zone, not UTC.  With a local offset of +1 hour (off =
3600000), the two trades at 23:00 UTC and 01:00 UTC of the same UTC calendar
day land in two different daily records (each in a singleton bucket with a
distinct key), refuting the claim that two trades fall in the same daily
record if and only if their timestamps lie in the same UTC calendar day. -/
theorem claim_C2_counterexample :
    Int.fdiv c2t1.time millisPerDay = Int.fdiv c2t2.time millisPerDay ∧
    lookupA (localDateKey 3600000 c2t1.time)
      (groupTradesByDate 3600000 [c2t1, c2t2]) = some [c2t1] ∧
    lookupA (localDateKey 3600000 c2t2.time)
      (groupTradesByDate 3600000 [c2t1, c2t2]) = some [c2t2] ∧
    localDateKey 3600000 c2t1.time ≠ localDateKey 3600000 c2t2.time := by
  refine ⟨by decide, by decide, by decide, by decide⟩

/-- C2, amended: two trades of the input fall in the same daily record if
and only if their timestamps lie in the same calendar day at the process's
local UTC offset (the key is the floor of (timestamp + off) / millisPerDay);
this is the UTC calendar day exactly when off = 0. -/
theorem claim_C2_amended (off : Int) (ts : List Trade) (x y : Trade)
    (hx : x ∈ ts) (hy : y ∈ ts) :
    (∃ k g, lookupA k (groupTradesByDate off ts) = some g ∧ x ∈ g ∧ y ∈ g) ↔
      localDateKey off x.time = localDateKey off y.time := by
  constructor
  · rintro ⟨k, g, hlook, hxg, hyg⟩
    rw [lookupA_groupTradesByDate] at hlook
    cases hf : ts.filter (fun t => decide (localDateKey off t.time = k)) with
    | nil =>
      rw [hf] at hlook
      exact absurd hlook (by simp [optAppend])
    | cons a l =>
      rw [hf] at hlook
      have hg : g = a :: l := by
        have : some (a :: l) = some g := by simpa [optAppend] using hlook
        exact (Option.some.inj this).symm
      rw [hg, ← hf] at hxg hyg
      have hxk := (List.mem_filter.mp hxg).2
      have hyk := (List.mem_filter.mp hyg).2
      simp only [decide_eq_true_eq] at hxk hyk
      rw [hxk, hyk]
  · intro heq
    have hxf : x ∈ ts.filter
        (fun t => decide (localDateKey off t.time = localDateKey off x.time)) :=
      List.mem_filter.mpr ⟨hx, by simp⟩
    refine ⟨localDateKey off x.time,
      ts.filter (fun t => decide (localDateKey off t.time = localDateKey off x.time)),
      ?_, hxf, List.mem_filter.mpr ⟨hy, by simp [heq]⟩⟩
    rw [lookupA_groupTradesByDate]
    cases hf : ts.filter
        (fun t => decide (localDateKey off t.time = localDateKey off x.time)) with
    | nil => rw [hf] at hxf; cases hxf
    | cons a l => simp [optAppend]

/-- C2, amended, witness: two trades at milliseconds 1000 and 2000 of epoch
day 0 share a daily record under offset 0, and their UTC day keys agree. -/
theorem claim_C2_amended_witness :
    wTradeB ∈ ([wTradeB, wTradeA] : List Trade) ∧
    wTradeA ∈ ([wTradeB, wTradeA] : List Trade) ∧
    ((∃ k g, lookupA k (groupTradesByDate 0 [wTradeB, wTradeA]) = some g ∧
        wTradeB ∈ g ∧ wTradeA ∈ g) ↔
      localDateKey 0 wTradeB.time = localDateKey 0 wTradeA.time) :=
  ⟨by decide, by decide,
    claim_C2_amended 0 [wTradeB, wTradeA] wTradeB wTradeA (by decide) (by decide)⟩

/-- C5, counterexample: merging an out-of-order sequence with itself
re-sorts it, so the output differs from the input as a sequence. -/
theorem claim_C5_counterexample :
    mergeTrades [wTradeA, wTradeB] [wTradeA, wTradeB] ≠ [wTradeA, wTradeB] := by
  decide

/-- C5, amended: for every trade sequence whose timestamps are strictly
increasing (in particular a valid cache in non-decreasing order without
equal-millisecond ties), merging it with itself yields the identical
sequence: same members, same order. -/
theorem claim_C5 (A : List Trade) (h : StrictSortedTrades A) :
    mergeTrades A A = A := by
  have hnd := strict_keyNodup h
  have hsor := strict_sortedTrades h
  have h1 : buildTradeMap [] A = A.map (fun t => (tradeKey t, t)) :=
    buildTradeMap_nil_of_keyNodup hnd
  have h2 : buildTradeMap (A.map (fun t => (tradeKey t, t))) A =
      A.map (fun t => (tradeKey t, t)) :=
    buildTradeMap_fixed _ (fun t ht => lookupA_map_pair_self hnd ht)
  rw [mergeTrades, h1, h2]
  have h3 : (A.map (fun t => (tradeKey t, t))).map Prod.snd = A := by
    have hcomp : (Prod.snd ∘ fun t : Trade => (tradeKey t, t)) = id := rfl
    rw [List.map_map, hcomp, List.map_id]
  rw [h3]
  exact sortLe_eq_self ((sortedB_iff_sortedTrades A).mpr hsor)

/-- C5, witness: a two-trade strictly increasing cache merged with itself. -/
theorem claim_C5_witness :
    StrictSortedTrades [wTradeB, wTradeA] ∧
    mergeTrades [wTradeB, wTradeA] [wTradeB, wTradeA] = [wTradeB, wTradeA] :=
  ⟨by decide, claim_C5 _ (by decide)⟩

/-- C7, counterexample: when the existing sequence itself contains two
entries with the same identity triple, the merge collapses them, so the
output is shorter than the input even though every element of B (here none)
appears in A. -/
theorem claim_C7_counterexample :
    (∀ b ∈ ([] : List Trade),
      tradeKey b ∈ ([wTradeB, wTradeB] : List Trade).map tradeKey) ∧
    (mergeTrades [wTradeB, wTradeB] []).length ≠
      ([wTradeB, wTradeB] : List Trade).length := by
  refine ⟨?_, by decide⟩
  intro b hb
  cases hb

/-- C7, amended: when A has pairwise-distinct identity triples and every
element of B carries an identity triple already present in A, the merge has
exactly the length of A. -/
theorem claim_C7 (A B : List Trade) (hnd : KeyNodup A)
    (hB : ∀ b ∈ B, tradeKey b ∈ A.map tradeKey) :
    (mergeTrades A B).length = A.length := by
  have h1 : buildTradeMap [] A = A.map (fun t => (tradeKey t, t)) :=
    buildTradeMap_nil_of_keyNodup hnd
  have hkeys : keysA (buildTradeMap [] A) = A.map tradeKey := by
    rw [h1]
    exact keysA_map_pair A
  have hmem : ∀ b ∈ B, tradeKey b ∈ keysA (buildTradeMap [] A) := by
    intro b hb
    rw [hkeys]
    exact hB b hb
  have h2 := buildTradeMap_mem_keys (buildTradeMap [] A) hmem
  calc (mergeTrades A B).length
      = ((buildTradeMap (buildTradeMap [] A) B).map Prod.snd).length :=
        (perm_sortLe _ _).length_eq
    _ = (buildTradeMap (buildTradeMap [] A) B).length := by simp
    _ = (buildTradeMap [] A).length := h2.1
    _ = A.length := by rw [h1]; simp

/-- C7, witness: A of two distinct trades, B repeating one of them. -/
theorem claim_C7_witness :
    KeyNodup [wTradeB, wTradeA] ∧
    (∀ b ∈ ([wTradeB] : List Trade),
      tradeKey b ∈ ([wTradeB, wTradeA] : List Trade).map tradeKey) ∧
    (mergeTrades [wTradeB, wTradeA] [wTradeB]).length =
      ([wTradeB, wTradeA] : List Trade).length :=
  ⟨by decide, by decide, claim_C7 _ _ (by decide) (by decide)⟩

/-- C8: for every sequence of batch responses, the pagination loop consumes
exactly the prefix up to and including the first terminal batch (one that is
empty, contributing no trades, or strictly shorter than the page limit,
processed before stopping); it issues one request per consumed batch, the
first at the initial cursor and each following one at (timestamp of the
previous batch's last fill + 1 millisecond); and it sleeps exactly once
before every request except the first. -/
theorem claim_C8 (conv : Fill → Option Trade) (bs : List (List Fill))
    (cursor : Int) :
    FetchTradesInRange conv bs cursor 0 =
      { trades := ((bs.take (firstTerminal bs + 1)).map
          (fun b => b.filterMap conv)).flatten,
        cursors := cursor :: (bs.take (firstTerminal bs)).map
          (fun b => lastTimeD b + 1),
        sleeps := (bs.take (firstTerminal bs)).length } ∧
    (FetchTradesInRange conv bs cursor 0).sleeps + 1 =
      (FetchTradesInRange conv bs cursor 0).cursors.length := by
  have h := fetchLoop_characterization conv bs cursor 0
  constructor
  · rw [h]
    simp [paceCount]
  · rw [h]
    simp [paceCount]

/-- C9: the single-day P&L is invariant under permutation of the trades:
it depends only on the multiset of trades, not on their order or on the
iteration order of the coin-position map. -/
theorem claim_C9 (l l₂ : List Trade) (h : l.Perm l₂) :
    calculatePnLForDay l = calculatePnLForDay l₂ := by
  rw [calculatePnLForDay_eq_sum, calculatePnLForDay_eq_sum]
  exact (h.map tradeContrib).sum_eq

/-- C9, witness: swapping a buy and a sell leaves the day P&L unchanged. -/
theorem claim_C9_witness :
    ([wTradeB, wTradeA] : List Trade).Perm [wTradeA, wTradeB] ∧
    calculatePnLForDay [wTradeB, wTradeA] = calculatePnLForDay [wTradeA, wTradeB] :=
  ⟨List.Perm.swap wTradeA wTradeB [],
    claim_C9 _ _ (List.Perm.swap wTradeA wTradeB [])⟩

/-- C10: a trade whose side is neither B nor A is still counted in its
date's trade count (the record's count is the number of all trades of that
date, including it), while the date's daily P&L is the same as if that
trade were absent: it contributes exactly zero. -/
theorem claim_C10 (off : Int) (ts : List Trade) (x : Trade) (hx : x ∈ ts)
    (hB : x.side ≠ "B") (hA : x.side ≠ "A") :
    ∃ r, lookupA (localDateKey off x.time) (calculateDailyPnLFromTrades off ts) =
        some r ∧
      r.tradeCount = (ts.filter
        (fun t => decide (localDateKey off t.time = localDateKey off x.time))).length ∧
      r.dailyPnL = calculatePnLForDay ((ts.filter
        (fun t => decide (localDateKey off t.time = localDateKey off x.time))).erase x) := by
  have hxf : x ∈ ts.filter
      (fun t => decide (localDateKey off t.time = localDateKey off x.time)) :=
    List.mem_filter.mpr ⟨hx, by simp⟩
  have hmap : lookupA (localDateKey off x.time) (calculateDailyPnLFromTrades off ts) =
      (lookupA (localDateKey off x.time) (groupTradesByDate off ts)).map
        (fun g => (⟨localDateKey off x.time, g.length,
          calculatePnLForDay g, 0⟩ : DailyPnL)) := by
    rw [calculateDailyPnLFromTrades]
    exact lookupA_map_keyed
      (fun k g => (⟨k, g.length, calculatePnLForDay g, 0⟩ : DailyPnL))
      (groupTradesByDate off ts) (localDateKey off x.time)
  cases hf : ts.filter
      (fun t => decide (localDateKey off t.time = localDateKey off x.time)) with
  | nil =>
    rw [hf] at hxf
    cases hxf
  | cons a l =>
    have hg : lookupA (localDateKey off x.time) (groupTradesByDate off ts) =
        some (a :: l) := by
      rw [lookupA_groupTradesByDate, hf]
      simp [optAppend]
    refine ⟨_, by rw [hmap, hg]; rfl, ?_, ?_⟩
    · rfl
    · have hxf2 : x ∈ a :: l := hf ▸ hxf
      have hperm : (a :: l).Perm (x :: (a :: l).erase x) :=
        List.perm_cons_erase hxf2
      have h0 : tradeContrib x = 0 := by simp [tradeContrib, hB, hA]
      show calculatePnLForDay (a :: l) = calculatePnLForDay ((a :: l).erase x)
      calc calculatePnLForDay (a :: l)
          = ((a :: l).map tradeContrib).sum := calculatePnLForDay_eq_sum _
        _ = ((x :: (a :: l).erase x).map tradeContrib).sum :=
            (hperm.map tradeContrib).sum_eq
        _ = tradeContrib x + (((a :: l).erase x).map tradeContrib).sum := by simp
        _ = calculatePnLForDay ((a :: l).erase x) := by
            rw [h0, calculatePnLForDay_eq_sum]
            ring

/-- C10, witness: a side X trade on its own day: its record exists with
count 1 and zero P&L (the day's trades with it erased are empty). -/
theorem claim_C10_witness :
    wTradeX ∈ ([wTradeB, wTradeX] : List Trade) ∧
    wTradeX.side ≠ "B" ∧ wTradeX.side ≠ "A" ∧
    (∃ r, lookupA (localDateKey 0 wTradeX.time)
        (calculateDailyPnLFromTrades 0 [wTradeB, wTradeX]) = some r ∧
      r.tradeCount = (([wTradeB, wTradeX] : List Trade).filter
        (fun t => decide (localDateKey 0 t.time = localDateKey 0 wTradeX.time))).length ∧
      r.dailyPnL = calculatePnLForDay ((([wTradeB, wTradeX] : List Trade).filter
        (fun t => decide (localDateKey 0 t.time = localDateKey 0 wTradeX.time))).erase
          wTradeX)) :=
  ⟨by decide, by decide, by decide,
    claim_C10 0 [wTradeB, wTradeX] wTradeX (by decide) (by decide) (by decide)⟩

/-- C1: the claim says that with a fresh cache and requestedDays equal to
cachedDays, the P&L is computed from the full merged cache without
filtering; the code disagrees.  The first branch's guard in
FetchAndReconcile is days ≤ cachedDays although its comment says SMALLER,
so it captures equality as well and filters the cache to
[now - days * 24h, now] before computing P&L, while the dedicated
equality branch (whose comment says SAME and which skips filtering) is
unreachable.  At this input (cachedDays = requestedDays = 7, cache fresh
for 30 minutes, a cached trade 7 days plus 1 second old, no new trades)
the call succeeds, the cache keeps both trades, but the daily table is
computed from the filtered single trade and differs from the table of the
full cache demanded by the claim. -/
theorem claim_C1 :
    (FetchAndReconcile 0 (fun _ _ => (Except.ok [] : Except Unit (List Trade)))
        c1State c1Now 7).2 = none ∧
    (FetchAndReconcile 0 (fun _ _ => (Except.ok [] : Except Unit (List Trade)))
        c1State c1Now 7).1.cache =
      some ⟨[c1OldTrade, c1NewTrade], c1Now, 7⟩ ∧
    keysA ((FetchAndReconcile 0
        (fun _ _ => (Except.ok [] : Except Unit (List Trade)))
        c1State c1Now 7).1.dailyPnL) = [localDateKey 0 c1NewTrade.time] ∧
    keysA (calculateDailyPnLFromTrades 0 [c1OldTrade, c1NewTrade]) =
      [localDateKey 0 c1OldTrade.time, localDateKey 0 c1NewTrade.time] ∧
    localDateKey 0 c1OldTrade.time ≠ localDateKey 0 c1NewTrade.time := by
  refine ⟨by decide, by decide, by decide, by decide, by decide⟩

/-- C3: if the Trade Source fails, reconcile returns the error unchanged
and the state — the account's cache entry and the daily P&L table — is
exactly the state before the call, in every branch (the code returns before
any mutation point). -/
theorem claim_C3 {ε : Type} (off : Int)
    (fetch : Int → Int → Except ε (List Trade)) (st : RSState)
    (now days : Int) (e : ε) (hfail : ∀ s t, fetch s t = Except.error e) :
    FetchAndReconcile off fetch st now days = (st, some e) := by
  cases hcache : st.cache with
  | none => simp only [FetchAndReconcile, hcache, fullFetch, hfail]
  | some cache =>
    simp only [FetchAndReconcile, hcache, fullFetch, hfail]
    split_ifs <;> rfl

/-- C3, witness: a source that always fails with error 42 leaves an empty
state untouched and surfaces 42. -/
theorem claim_C3_witness :
    (∀ s t : Int, ((fun _ _ => Except.error 42) :
        Int → Int → Except Nat (List Trade)) s t = Except.error 42) ∧
    FetchAndReconcile 0 ((fun _ _ => Except.error 42) :
        Int → Int → Except Nat (List Trade)) ⟨none, []⟩ 1000 7 =
      (⟨none, []⟩, some 42) :=
  ⟨fun _ _ => rfl, claim_C3 0 _ ⟨none, []⟩ 1000 7 42 (fun _ _ => rfl)⟩

/-- C4: after every successful reconcile, the account's cached trade list
is in non-decreasing time order with no two entries sharing an identity
triple.  The incremental branches preserve it through mergeTrades (whose
output is unconditionally sorted and identity-distinct) or keep the cache
unchanged when nothing new arrived; the full-fetch branch stores the
fetched list, which satisfies the invariant by the Trade Source contract
(ascending, and pagination cursors advance past each batch), taken here as
the hypothesis on successful fetch results. -/
theorem claim_C4 {ε : Type} (off : Int)
    (fetch : Int → Int → Except ε (List Trade)) (st : RSState)
    (now days : Int) (st₂ : RSState)
    (hfetch : ∀ s t l, fetch s t = Except.ok l → SortedTrades l ∧ KeyNodup l)
    (hinv : CacheInv st)
    (hok : FetchAndReconcile off fetch st now days = (st₂, none)) :
    CacheInv st₂ := by
  cases hcache : st.cache with
  | none =>
    have hful : fullFetch off fetch st now days = (st₂, none) := by
      rw [← hok]
      simp [FetchAndReconcile, hcache]
    exact fullFetch_inv off fetch st now days st₂ hfetch hful
  | some cache =>
    simp only [FetchAndReconcile, hcache] at hok
    by_cases h1 : cache.lastFetchTime ≠ 0 ∧ days ≤ cache.cachedDays ∧
        now - cache.lastFetchTime < millisPerHour
    · rw [if_pos h1] at hok
      cases hfr : fetch cache.lastFetchTime now with
      | error e =>
        rw [hfr] at hok
        exact absurd (congrArg Prod.snd hok) (by simp)
      | ok newTrades =>
        rw [hfr] at hok
        have hst : (⟨some ⟨if 0 < newTrades.length then
            mergeTrades cache.trades newTrades else cache.trades, now,
            cache.cachedDays⟩,
            calculateDailyPnLFromTrades off (filterTradesByTime
              (if 0 < newTrades.length then mergeTrades cache.trades newTrades
                else cache.trades) (now - days * millisPerDay))⟩ : RSState) =
            st₂ := congrArg Prod.fst hok
        intro c hc
        rw [← hst] at hc
        have hce : (⟨if 0 < newTrades.length then
            mergeTrades cache.trades newTrades else cache.trades, now,
            cache.cachedDays⟩ : AccountCache) = c := Option.some.inj hc
        rw [← hce]
        by_cases hlen : 0 < newTrades.length
        · simp only [if_pos hlen]
          exact ⟨mergeTrades_sortedTrades _ _, mergeTrades_keyNodup _ _⟩
        · simp only [if_neg hlen]
          exact hinv cache hcache
    · rw [if_neg h1] at hok
      by_cases h2 : cache.lastFetchTime ≠ 0 ∧ days = cache.cachedDays ∧
          now - cache.lastFetchTime < millisPerHour
      · rw [if_pos h2] at hok
        cases hfr : fetch cache.lastFetchTime now with
        | error e =>
          rw [hfr] at hok
          exact absurd (congrArg Prod.snd hok) (by simp)
        | ok newTrades =>
          rw [hfr] at hok
          have hst : (⟨some ⟨if 0 < newTrades.length then
              mergeTrades cache.trades newTrades else cache.trades, now,
              cache.cachedDays⟩,
              calculateDailyPnLFromTrades off
                (if 0 < newTrades.length then mergeTrades cache.trades newTrades
                  else cache.trades)⟩ : RSState) = st₂ := congrArg Prod.fst hok
          intro c hc
          rw [← hst] at hc
          have hce : (⟨if 0 < newTrades.length then
              mergeTrades cache.trades newTrades else cache.trades, now,
              cache.cachedDays⟩ : AccountCache) = c := Option.some.inj hc
          rw [← hce]
          by_cases hlen : 0 < newTrades.length
          · simp only [if_pos hlen]
            exact ⟨mergeTrades_sortedTrades _ _, mergeTrades_keyNodup _ _⟩
          · simp only [if_neg hlen]
            exact hinv cache hcache
      · rw [if_neg h2] at hok
        exact fullFetch_inv off fetch st now days st₂ hfetch hok

/-- C4, witness: a first reconcile of an empty state against a source
returning no trades establishes the invariant. -/
theorem claim_C4_witness :
    (∀ s t l, ((fun _ _ => Except.ok []) :
        Int → Int → Except Unit (List Trade)) s t = Except.ok l →
      SortedTrades l ∧ KeyNodup l) ∧
    CacheInv ⟨none, []⟩ ∧
    CacheInv (⟨some ⟨[], 1000, 7⟩, calculateDailyPnLFromTrades 0 []⟩ : RSState) := by
  have hfetch : ∀ s t l, ((fun _ _ => Except.ok []) :
      Int → Int → Except Unit (List Trade)) s t = Except.ok l →
      SortedTrades l ∧ KeyNodup l := by
    intro s t l h
    have hl : ([] : List Trade) = l := Except.ok.inj h
    rw [← hl]
    exact ⟨by decide, by decide⟩
  have hinv : CacheInv ⟨none, []⟩ := by
    intro c hc
    cases hc
  exact ⟨hfetch, hinv,
    claim_C4 0 _ ⟨none, []⟩ 1000 7 _ hfetch hinv rfl⟩

/-- C6: the summary lists the daily records sorted descending by date;
each record's cumulative P&L is the sum of the daily P&L of all records
with a date up to and including its own; totalPnL is the sum of all daily
P&L values; and the first (most recent) record's cumulative value equals
totalPnL. -/
theorem claim_C6 (off : Int) (ts : List Trade) (s : PnLSummary)
    (hs : s = GetPnLSummary (calculateDailyPnLFromTrades off ts)) :
    s.dailyRecords.Pairwise (fun a b => b.date ≤ a.date) ∧
    (∀ r ∈ s.dailyRecords, r.cumulativePnL =
      sumDaily (s.dailyRecords.filter (fun q => decide (q.date ≤ r.date)))) ∧
    s.totalPnL = sumDaily s.dailyRecords ∧
    (∀ r rest, s.dailyRecords = r :: rest → r.cumulativePnL = s.totalPnL) := by
  subst hs
  rw [getPnLSummary_eq]
  have hdates : (((calculateDailyPnLFromTrades off ts).map Prod.snd).map
      (fun r => r.date)).Nodup := by
    rw [dates_calcDaily]
    exact nodup_keysA_groupTradesByDate off ts
  have hperm : (sortLe dateGeB ((calculateDailyPnLFromTrades off ts).map
      Prod.snd)).Perm ((calculateDailyPnLFromTrades off ts).map Prod.snd) :=
    perm_sortLe _ _
  have hndSorted : ((sortLe dateGeB ((calculateDailyPnLFromTrades off ts).map
      Prod.snd)).map (fun r => r.date)).Nodup :=
    ((hperm.map (fun r => r.date)).nodup_iff).mpr hdates
  have hpw : (sortLe dateGeB ((calculateDailyPnLFromTrades off ts).map
      Prod.snd)).Pairwise (fun a b => b.date ≤ a.date) :=
    (sorted_sortLe dateGeB_total dateGeB_trans _).imp
      (by intro a b h; simpa [dateGeB] using h)
  have hne : (sortLe dateGeB ((calculateDailyPnLFromTrades off ts).map
      Prod.snd)).Pairwise (fun a b => a.date ≠ b.date) :=
    List.pairwise_map.mp hndSorted
  have hstrict : (sortLe dateGeB ((calculateDailyPnLFromTrades off ts).map
      Prod.snd)).Pairwise (fun a b => b.date < a.date) := by
    refine (hpw.and hne).imp ?_
    intro a b h
    rcases h with ⟨h1, h2⟩
    rcases lt_or_eq_of_le h1 with h3 | h3
    · exact h3
    · exact absurd h3.symm h2
  refine ⟨addCumulative_pairwise_dateGe hpw,
    addCumulative_cum_filter hstrict, rfl, ?_⟩
  intro r rest h
  simp only at h ⊢
  rw [addCumulative_head h, sumDaily_addCumulative]

/-- C6, witness: the summary over one buy and one sell of the same day. -/
theorem claim_C6_witness :
    (GetPnLSummary (calculateDailyPnLFromTrades 0 [wTradeB, wTradeA])).dailyRecords.Pairwise
      (fun a b => b.date ≤ a.date) ∧
    (∀ r ∈ (GetPnLSummary (calculateDailyPnLFromTrades 0
        [wTradeB, wTradeA])).dailyRecords, r.cumulativePnL =
      sumDaily ((GetPnLSummary (calculateDailyPnLFromTrades 0
        [wTradeB, wTradeA])).dailyRecords.filter
          (fun q => decide (q.date ≤ r.date)))) ∧
    (GetPnLSummary (calculateDailyPnLFromTrades 0 [wTradeB, wTradeA])).totalPnL =
      sumDaily (GetPnLSummary (calculateDailyPnLFromTrades 0
        [wTradeB, wTradeA])).dailyRecords ∧
    (∀ r rest, (GetPnLSummary (calculateDailyPnLFromTrades 0
        [wTradeB, wTradeA])).dailyRecords = r :: rest →
      r.cumulativePnL = (GetPnLSummary (calculateDailyPnLFromTrades 0
        [wTradeB, wTradeA])).totalPnL) :=
  claim_C6 0 [wTradeB, wTradeA] _ rfl

end HLRecon
